import Mathlib

/-
Verification of the mystlang extension core (src/src/extension.ts).

The development shallowly embeds the pure core of the extension:

* lines of text are `List Char`; a document (`TextDoc`) is a URI plus its
  list of lines, mirroring the `vscode.TextDocument` interface surface the
  code actually uses (`lineCount`, `lineAt(row).text`, `uri`);
* the JavaScript object used as a map (`{ [key: string]: ... }`) is an
  association list in insertion order (`Myst.Dict`): property assignment
  replaces the value of an existing key in place and appends a fresh key at
  the end, exactly as JS objects behave for string keys;
* the regular expressions are compiled to deterministic maximal-munch
  scanners.  This is faithful because in every quantified position of the
  source regexes the repeated character class is disjoint from the
  character that has to follow it, so the backtracking regex engine and
  the maximal-munch scanner accept exactly the same strings:
  - `LabelRegEx = [\w:+\-.,@]+` (greedy run; the character after the run is
    by definition not a label character);
  - `\s*` is always followed by a non-space character (brace, colon or a
    label character);
  - `[\x60:]{3,}` (backtick-or-colon run) is always followed by a brace.
  All three definition alternatives of `queryCrossRefDefLocations` are
  anchored with `^` and the combined regex has no `m` flag, so the regex
  can only match at column 0 and `matchAll` produces at most one match per
  line; `defLineMatch` therefore returns an `Option`.  The reference regex
  of `queryReferenceLocations` is unanchored; `matchAll` yields the
  leftmost match, then continues scanning at the end of that match, which
  `refScanAux` reproduces.
* asynchronous project aggregation (`Promise.all` + per-task merge into a
  shared accumulator) is a fold over the list of per-file results in task
  completion order; order-dependence is made explicit by quantifying over
  or comparing both orders of a two-file project;
* `fs` calls are modelled with `Except String` results supplied by the
  environment: `fs.access` outcomes are a function parameter, and the
  directory tree seen by `fs.readdir` is an explicit inductive tree whose
  directories carry a flag saying whether `readdir` succeeds on them.
-/

namespace Myst

/-! ## Characters and primitive scanning  -/

/-- Character class of `LabelRegEx = [\w:+\-.,@]+` (extension.ts line 67).
JavaScript `\w` is `[A-Za-z0-9_]`, so the underscore is accepted. -/
def isLabelChar (c : Char) : Bool :=
  (Nat.ble 65 c.toNat && Nat.ble c.toNat 90)    -- A-Z
  || (Nat.ble 97 c.toNat && Nat.ble c.toNat 122) -- a-z
  || (Nat.ble 48 c.toNat && Nat.ble c.toNat 57)  -- 0-9
  || c == '_'                                    -- the _ of \w
  || c == ':' || c == '+' || c == '-' || c == '.' || c == ',' || c == '@'

/-- JavaScript `\s`, restricted to its ASCII members (space, tab, line feed,
carriage return, vertical tab, form feed).  The Unicode space family that
`\s` additionally matches is omitted; no claim involves non-ASCII
whitespace and no label character is a Unicode space either. -/
def isSpaceChar (c : Char) : Bool :=
  c == ' ' || c == '\t' || c == '\n' || c == '\r' || c == '\x0b' || c == '\x0c'

/-- Backtick or colon, the class `[\x60:]` of `FigureMdRegEx`. -/
def isFenceChar (c : Char) : Bool :=
  c == '\x60' || c == ':'

/-- `pat.isPrefixOf s` for character lists, written out so that it reduces
by `rfl`/`decide` on concrete inputs. -/
def startsWithL : List Char → List Char → Bool
  | [], _ => true
  | _ :: _, [] => false
  | p :: ps, c :: cs => p == c && startsWithL ps cs

/-- Maximal run of label characters: the capture of a greedy `LabelRegEx`. -/
def labelRun (cs : List Char) : List Char :=
  cs.takeWhile isLabelChar

/-- Length of the leading whitespace run: what a greedy `\s*` consumes. -/
def wsLen (cs : List Char) : Nat :=
  (cs.takeWhile isSpaceChar).length

/-! ## Definition-pattern scanning (`queryCrossRefDefLocations`, lines 70-87)

The combined regex is `(^\s*\{#|^[\x60:]{3,}\{figure-md\}\s*|^\s*:name:\s*)(LabelRegEx)`
with flags `dg`.  The three prefix alternatives are mutually exclusive on
any line (after the common whitespace run the next character is `{`, a
fence character, or `:` of `:name:`, and a line opening with three or more
fence characters can satisfy neither of the other two), so trying them in
regex order is both faithful and order-independent. -/

/-- Length consumed by `SecStartRegEx = ^\s*\{#` when it matches. -/
def secStartLen (cs : List Char) : Option Nat :=
  if startsWithL "\x7b#".data (cs.drop (wsLen cs)) then some (wsLen cs + 2) else none

/-- Length consumed by `FigureMdRegEx = ^[\x60:]{3,}\{figure-md\}\s*` when it
matches.  The fence run is maximal: a shorter run would have to be
followed by `{`, which is not a fence character. -/
def figureMdLen (cs : List Char) : Option Nat :=
  if Nat.ble 3 (cs.takeWhile isFenceChar).length
      && startsWithL "\x7bfigure-md\x7d".data (cs.drop (cs.takeWhile isFenceChar).length) then
    some ((cs.takeWhile isFenceChar).length + 11
      + wsLen (cs.drop ((cs.takeWhile isFenceChar).length + 11)))
  else none

/-- Length consumed by `NameRegEx = ^\s*:name:\s*` when it matches. -/
def nameLen (cs : List Char) : Option Nat :=
  if startsWithL ":name:".data (cs.drop (wsLen cs)) then
    some (wsLen cs + 6 + wsLen (cs.drop (wsLen cs + 6)))
  else none

/-- Length consumed by group 1 of the definition regex, i.e. the first (and
only) alternative whose prefix matches the start of the line. -/
def defPrefixLen (cs : List Char) : Option Nat :=
  match secStartLen cs with
  | some n => some n
  | none =>
    match figureMdLen cs with
    | some n => some n
    | none => nameLen cs

/-- The unique match of the definition regex on one line, if any: the
captured identifier (group 2) together with its half-open column span.
Because every alternative of group 1 is `^`-anchored and the regex has no
`m` flag, `matchAll` can produce at most one match per line. -/
def defLineMatch (cs : List Char) : Option (String × Nat × Nat) :=
  match defPrefixLen cs with
  | none => none
  | some p =>
    if labelRun (cs.drop p) = [] then none
    else some (String.mk (labelRun (cs.drop p)), p, p + (labelRun (cs.drop p)).length)

/-! ## Reference-pattern scanning (`queryReferenceLocations`, lines 109-131)

Regex: `(\{numref\}\x60|\]\()(LabelRegEx)` with flags `dg`, unanchored. -/

/-- Length of the reference trigger (group 1) matching at the head of the
list: 9 for `{numref}` followed by a backtick, 2 for `](`.  The two
alternatives start with distinct characters, so at most one applies. -/
def refPrefixLen (cs : List Char) : Option Nat :=
  if startsWithL "\x7bnumref\x7d\x60".data cs then some 9
  else if startsWithL "](".data cs then some 2
  else none

/-- One step of `matchAll` scanning with fuel: at each start position try
the trigger; on a match with a non-empty identifier, emit the capture and
resume at the end of the whole match (JS `lastIndex`), otherwise advance
one column.  `fuel ≥ cs.length` makes the fuel sufficient, because every
step consumes at least one character. -/
def refScanAux : Nat → List Char → Nat → List (String × Nat × Nat)
  | 0, _, _ => []
  | _ + 1, [], _ => []
  | fuel + 1, c :: rest, pos =>
    match refPrefixLen (c :: rest) with
    | some p =>
      if labelRun ((c :: rest).drop p) = [] then refScanAux fuel rest (pos + 1)
      else
        (String.mk (labelRun ((c :: rest).drop p)), pos + p,
            pos + p + (labelRun ((c :: rest).drop p)).length)
          :: refScanAux fuel ((c :: rest).drop (p + (labelRun ((c :: rest).drop p)).length))
              (pos + p + (labelRun ((c :: rest).drop p)).length)
    | none => refScanAux fuel rest (pos + 1)

/-- All matches of the reference regex on one line, in left-to-right
order, each as (identifier, start column, end column) of group 2. -/
def refLineMatches (cs : List Char) : List (String × Nat × Nat) :=
  refScanAux cs.length cs 0

/-! ## Documents, locations, and the JS-object map -/

/-- The slice of `vscode.TextDocument` the code uses: a URI and the lines. -/
structure TextDoc where
  uri : String
  lines : List (List Char)
deriving DecidableEq

/-- `vscode.Location` as built by the code: always a single-line range, so
one row plus a half-open column span. -/
structure Location where
  uri : String
  row : Nat
  startCol : Nat
  endCol : Nat
deriving DecidableEq

/-- A JavaScript object used as a string-keyed map, in property insertion
order. -/
def Dict (α : Type) : Type := List (String × α)

namespace Dict

/-- Property read `d[k]`. -/
def get? {α : Type} : Dict α → String → Option α
  | [], _ => none
  | (k, v) :: rest, k0 => if k = k0 then some v else get? rest k0

/-- Property write `d[k] = v`: replace in place if the key exists,
otherwise append. -/
def set {α : Type} : Dict α → String → α → Dict α
  | [], k0, v0 => [(k0, v0)]
  | (k, v) :: rest, k0, v0 =>
    if k = k0 then (k, v0) :: rest else (k, v) :: set rest k0 v0

/-- `Object.keys d`, in insertion order. -/
def keys {α : Type} (d : Dict α) : List String :=
  d.map Prod.fst

/-- `d[k].push(v)` when the key exists, `d[k] = [v]` otherwise: the
accumulation step of `queryReferenceLocations`. -/
def append1 {α : Type} : Dict (List α) → String → α → Dict (List α)
  | [], k0, v0 => [(k0, [v0])]
  | (k, vs) :: rest, k0, v0 =>
    if k = k0 then (k, vs ++ [v0]) :: rest else (k, vs) :: append1 rest k0 v0

/-- The object spread `{...a, ...b}`: assign every property of `b` into a
copy of `a`, in `b`'s key order. -/
def union {α : Type} (a b : Dict α) : Dict α :=
  b.foldl (fun acc kv => set acc kv.1 kv.2) a

end Dict

/-! ## Per-document indexing -/

/-- Loop body of `queryCrossRefDefLocations` for one line: on a match,
`locations[symbol] = new Location(...)`. -/
def defStep (uri : String) (acc : Dict Location) (rl : Nat × List Char) : Dict Location :=
  match defLineMatch rl.2 with
  | none => acc
  | some (sym, s, e) => Dict.set acc sym ⟨uri, rl.1, s, e⟩

/-- `queryCrossRefDefLocations` (extension.ts lines 70-87): scan every line
in order, last assignment to a key wins. -/
def queryCrossRefDefLocations (doc : TextDoc) : Dict Location :=
  doc.lines.enum.foldl (defStep doc.uri) []

/-- Loop body of `queryReferenceLocations` for one line: push every match
of the line, in match order. -/
def refStep (uri : String) (acc : Dict (List Location)) (rl : Nat × List Char) :
    Dict (List Location) :=
  (refLineMatches rl.2).foldl
    (fun a m => Dict.append1 a m.1 ⟨uri, rl.1, m.2.1, m.2.2⟩) acc

/-- `queryReferenceLocations` (extension.ts lines 109-131). -/
def queryReferenceLocations (doc : TextDoc) : Dict (List Location) :=
  doc.lines.enum.foldl (refStep doc.uri) []

/-! ## Project-wide aggregation

`queryAllDefLocations` / `queryAllReferenceLocations` run the per-file
indexer over every markdown file and merge into a shared accumulator, one
merge step per completed task.  The fold below takes the per-task merge
order as the list order of its argument. -/

/-- The definition merge `allSymbols = {...allSymbols, ...symbols}`
(extension.ts line 103), folded over the files in completion order. -/
def queryAllDefLocationsMerged (docs : List TextDoc) : Dict Location :=
  docs.foldl (fun acc d => Dict.union acc (queryCrossRefDefLocations d)) []

/-- The reference merge of `queryAllReferenceLocations` (lines 148-154),
exactly as written: when the key already exists the code evaluates
`allSymbols[symbol].concat(refLocs[symbol])` and discards the result
(`Array.concat` returns a new array), so the accumulator is unchanged;
only a fresh key stores its list. -/
def mergeRefsFile (acc : Dict (List Location)) (b : Dict (List Location)) :
    Dict (List Location) :=
  b.foldl
    (fun a kv =>
      match Dict.get? a kv.1 with
      | some _ => a
      | none => Dict.set a kv.1 kv.2) acc

/-- `queryAllReferenceLocations` merge over the files in completion order. -/
def queryAllReferenceLocationsMerged (docs : List TextDoc) : Dict (List Location) :=
  docs.foldl (fun acc d => mergeRefsFile acc (queryReferenceLocations d)) []

/-- Scope choice of both `queryAll*` functions (lines 92-94 / 136-138): no
sphinx root means single-document scope, otherwise project scope over the
enumerated markdown files. -/
def queryAllDefLocationsModel : Option (List TextDoc) → TextDoc → Dict Location
  | none, cur => queryCrossRefDefLocations cur
  | some docs, _ => queryAllDefLocationsMerged docs

/-! ## Completion provider (`MySTCompletionItemProvider`, lines 160-188) -/

/-- JavaScript `s.substring(a)`: a negative start is clamped to 0. -/
def jsSubstringFrom (s : List Char) (a : Int) : List Char :=
  s.drop a.toNat

/-- JavaScript `s.substring(a, b)`: both arguments are clamped into
`[0, s.length]` and swapped when `a > b`. -/
def jsSubstring (s : List Char) (a b : Int) : List Char :=
  let n : Int := Int.ofNat s.length
  let a2 := min (max a 0) n
  let b2 := min (max b 0) n
  (s.take (max a2 b2).toNat).drop (min a2 b2).toNat

/-- `provideCompletionItems`, with the completion items reduced to their
identifier labels.  `trigger` is `context.triggerCharacter`.  Faithful
points: the backtick branch tests
`text.substring(position.character - 9).startsWith("{numref}" + backtick)`;
the parenthesis branch tests `text.substring(position.character - 1, 1) === "]"`
(the slice actually compared is the characters between string indices 1 and
`position.character - 1`); any other trigger value falls through both
branches and returns the candidate list. -/
def provideCompletionItems (scope : Option (List TextDoc)) (doc : TextDoc)
    (row charPos : Nat) (trigger : Option Char) : Option (List String) :=
  let text := doc.lines.getD row []
  let keyword := "\x7bnumref\x7d\x60".data
  if trigger = some '\x60' then
    if startsWithL keyword (jsSubstringFrom text ((charPos : Int) - keyword.length)) then
      some (Dict.keys (queryAllDefLocationsModel scope doc))
    else none
  else if trigger = some '(' then
    if jsSubstring text ((charPos : Int) - 1) 1 = [']'] then
      some (Dict.keys (queryAllDefLocationsModel scope doc))
    else none
  else some (Dict.keys (queryAllDefLocationsModel scope doc))

/-! ## Root resolution (`getSphinxRoot`, lines 43-54) and the filesystem

A directory path is its component list, deepest component first, so
`path.dirname` is `List.tail` and the filesystem root is `[]` (on which
`path.dirname` is the identity, the loop-exit test of the source). -/

/-- `getSphinxRoot`, abstracted over the existence check for
`path.join(dir, "conf.py")`: return the current directory when the check
succeeds, stop with `undefined` at the root, else recurse on the parent. -/
def getSphinxRoot (hasConf : List String → Bool) : List String → Option (List String)
  | [] => if hasConf [] then some [] else none
  | c :: rest => if hasConf (c :: rest) then some (c :: rest) else getSphinxRoot hasConf rest

/-- `doesFileExists` (lines 7-14): `fs.access` wrapped in try/catch — an
`ok` outcome is `true`, any thrown error is swallowed and becomes `false`.
The behaviour of `fs.access` on each path is the parameter `fsAccess`. -/
def doesFileExists (fsAccess : List String → Except String Unit) (p : List String) : Bool :=
  match fsAccess p with
  | Except.ok _ => true
  | Except.error _ => false

/-- `getSphinxRoot` as called by the code: the existence check is
`doesFileExists` on `path.join(dirPath, "conf.py")`. -/
def getSphinxRootFS (fsAccess : List String → Except String Unit) (d : List String) :
    Option (List String) :=
  getSphinxRoot (fun dir => doesFileExists fsAccess ("conf.py" :: dir)) d

/-- Directory listing as seen by `fs.readdir(..., { withFileTypes: true })`:
a sibling-chained entry list.  A `dir` entry carries whether `readdir`
succeeds on it (false models e.g. a permission error). -/
inductive FSEntries where
  | nil : FSEntries
  | file : String → FSEntries → FSEntries
  | dir : String → Bool → FSEntries → FSEntries → FSEntries

/-- `path.join` for the two-argument uses in the source. -/
def pathJoin (p name : String) : String := p ++ "/" ++ name

/-- `isMarkdownFile` (lines 16-18): the name ends with `.md`. -/
def isMarkdownFile (fileName : String) : Bool :=
  startsWithL ".md".data.reverse fileName.data.reverse

/-- The entry loop of `searchDirectory` (lines 26-36): files whose name
ends in `.md` contribute their full path; a directory entry recurses
(`await searchDirectory(fullPath)`), and a failing `readdir` there is not
caught, so the error propagates and the results so far are discarded. -/
def searchEntries (p : String) : FSEntries → Except String (List String)
  | FSEntries.nil => Except.ok []
  | FSEntries.file name rest =>
    match searchEntries p rest with
    | Except.error e => Except.error e
    | Except.ok more =>
      Except.ok ((if isMarkdownFile name then [pathJoin p name] else []) ++ more)
  | FSEntries.dir name readable children rest =>
    if readable then
      match searchEntries (pathJoin p name) children with
      | Except.error e => Except.error e
      | Except.ok sub =>
        match searchEntries p rest with
        | Except.error e => Except.error e
        | Except.ok more => Except.ok (sub ++ more)
    else Except.error "EACCES"

/-- `findMarkdownFiles` (lines 20-41): `readdir` on the root directory
itself, then the entry walk.  No try/catch anywhere on this path. -/
def findMarkdownFiles (dirPath : String) (readable : Bool) (entries : FSEntries) :
    Except String (List String) :=
  if readable then searchEntries dirPath entries else Except.error "EACCES"

end Myst

namespace Myst

/-! ## Concrete inputs used by the claim theorems and witnesses -/

/-- File A of the C1 scenario: identifier `x` referenced twice on one line. -/
def c1DocA : TextDoc := ⟨"file:///A.md", ["\x7bnumref\x7d\x60x\x60 \x7bnumref\x7d\x60x\x60".data]⟩

/-- File B of the C1 scenario: identifier `x` referenced once. -/
def c1DocB : TextDoc := ⟨"file:///B.md", ["\x7bnumref\x7d\x60x\x60".data]⟩

/-- Document for the C2 scenario: a definition of `fig1` and a line ending
in `](` with the caret after the parenthesis. -/
def c2Doc : TextDoc := ⟨"file:///c.md", [":name: fig1".data, "ab](".data]⟩

/-- The identifier character class exactly as the specification words it:
one or more of `A-Z a-z 0-9 - : + , . @` — in particular no underscore. -/
def claimLabelChar (c : Char) : Bool :=
  (Nat.ble 65 c.toNat && Nat.ble c.toNat 90)
  || (Nat.ble 97 c.toNat && Nat.ble c.toNat 122)
  || (Nat.ble 48 c.toNat && Nat.ble c.toNat 57)
  || c == '-' || c == ':' || c == '+' || c == ',' || c == '.' || c == '@'

/-- C1: the claim says the merged reference map never drops references —
for `x` referenced twice in A and once in B the merged sequence must have
length 3.  The code computes `allSymbols[symbol].concat(refLocs[symbol])`
and discards the result, so whichever file is merged first fixes the whole
entry: the inputs contain 2 + 1 references, but the merge yields 2 (A
first) or 1 (B first), never 3. -/
theorem C1_reference_merge_drops_refs :
    (Dict.get? (queryAllReferenceLocationsMerged [c1DocA, c1DocB]) "x").map List.length
        = some 2
    ∧ (Dict.get? (queryAllReferenceLocationsMerged [c1DocB, c1DocA]) "x").map List.length
        = some 1
    ∧ (Dict.get? (queryReferenceLocations c1DocA) "x").map List.length = some 2
    ∧ (Dict.get? (queryReferenceLocations c1DocB) "x").map List.length = some 1 := by
  exact ⟨rfl, rfl, rfl, rfl⟩

/-- C2: the claim says candidates are returned exactly when the caret
immediately follows `{numref}` plus backtick or follows `](`, and for any
other trigger nothing is returned.  In `c2Doc`, line 1 is `ab](` with the
caret at column 4, immediately after `](`, and the document scope defines
`fig1`; the open-parenthesis branch compares `text.substring(3, 1)` — the
slice `b]` — against `]`, so the code returns no candidates where the
claim requires the full key set.  Conversely a completion request with no
trigger character falls through both guards and returns all candidates
where the claim requires none. -/
theorem C2_completion_trigger_divergence :
    provideCompletionItems none c2Doc 1 4 (some '(') = none
    ∧ Dict.keys (queryAllDefLocationsModel none c2Doc) = ["fig1"]
    ∧ provideCompletionItems none c2Doc 0 0 none = some ["fig1"] := by
  exact ⟨rfl, rfl, rfl⟩

/-- C3 counterexample: the scanners do not accept exactly the spec's
character class — on the line `:name: a_b` the definition scanner captures
the identifier `a_b`, which contains an underscore, a character outside
the class the claim states (`\w` of the source regex includes `_`). -/
theorem C3_underscore_counterexample :
    defLineMatch (":name: a_b".data) = some ("a_b", 7, 10)
    ∧ '_' ∈ "a_b".data
    ∧ claimLabelChar '_' = false := by
  exact ⟨rfl, by decide, rfl⟩

/-- C9 counterexample: a failing `readdir` is not swallowed.  On a project
tree whose first entry is an unreadable subdirectory, `findMarkdownFiles`
propagates the error instead of completing with a (possibly empty)
result, contradicting the claim that no filesystem error ever escapes an
enumeration path. -/
theorem C9_enumeration_error_escapes :
    findMarkdownFiles "r" true
        (FSEntries.dir "sub" false FSEntries.nil (FSEntries.file "a.md" FSEntries.nil))
      = Except.error "EACCES" := by
  exact rfl

end Myst

namespace Myst

/-! ## Combinators describing how folds act on a single key -/

/-- Keep the later value when there is one: `lastO x y` is `y` if set,
else `x`.  Describes one overwriting assignment. -/
def lastO {α : Type} (x y : Option α) : Option α :=
  match y with
  | some v => some v
  | none => x

/-- Append to an optional list, creating it when needed — but an absent
entry stays absent when there is nothing to add. -/
def appO {α : Type} (o : Option (List α)) (l : List α) : Option (List α) :=
  match o with
  | some xs => some (xs ++ l)
  | none => match l with
    | [] => none
    | _ :: _ => some l

theorem lastO_assoc {α : Type} (a b c : Option α) :
    lastO (lastO a b) c = lastO a (lastO b c) := by
  cases c <;> cases b <;> rfl

theorem appO_append {α : Type} (o : Option (List α)) (l₁ l₂ : List α) :
    appO (appO o l₁) l₂ = appO o (l₁ ++ l₂) := by
  cases o with
  | some xs => simp [appO]
  | none =>
    cases l₁ with
    | nil => simp [appO]
    | cons a t => cases l₂ <;> simp [appO]

namespace Dict

variable {α : Type}

@[simp] theorem keys_nil : keys ([] : Dict α) = [] := rfl

@[simp] theorem keys_cons (k : String) (v : α) (d : Dict α) :
    keys ((k, v) :: d) = k :: keys d := rfl

theorem get?_set (d : Dict α) (k k0 : String) (v : α) :
    get? (set d k v) k0 = if k = k0 then some v else get? d k0 := by
  induction d with
  | nil => simp only [set, get?]
  | cons kv rest ih =>
    obtain ⟨k1, v1⟩ := kv
    by_cases h1 : k1 = k <;> by_cases h0 : k1 = k0
    · have hk : k = k0 := h1.symm.trans h0
      simp [set, get?, h1, h0, hk]
    · have hk : ¬k = k0 := fun h => h0 (h1.trans h)
      simp [set, get?, h1, h0, hk]
    · subst h0
      have hk : ¬k = k1 := fun h => h1 h.symm
      simp [set, get?, h1, hk]
    · simp [set, get?, h1, h0, ih]

theorem mem_keys_set (d : Dict α) (k k0 : String) (v : α) :
    k0 ∈ keys (set d k v) ↔ k0 = k ∨ k0 ∈ keys d := by
  induction d with
  | nil => simp [set]
  | cons kv rest ih =>
    obtain ⟨k1, v1⟩ := kv
    by_cases h1 : k1 = k
    · subst h1
      simp [set]
    · simp [set, h1, ih]
      tauto

theorem nodup_keys_set (d : Dict α) (k : String) (v : α)
    (h : (keys d).Nodup) : (keys (set d k v)).Nodup := by
  induction d with
  | nil => simp [set]
  | cons kv rest ih =>
    obtain ⟨k1, v1⟩ := kv
    rw [keys_cons, List.nodup_cons] at h
    by_cases h1 : k1 = k
    · subst h1
      simpa [set] using h
    · rw [show set ((k1, v1) :: rest) k v = (k1, v1) :: set rest k v by simp [set, h1]]
      rw [keys_cons, List.nodup_cons]
      refine ⟨fun hmem => ?_, ih h.2⟩
      rcases (mem_keys_set rest k k1 v).1 hmem with h2 | h2
      · exact h1 h2
      · exact h.1 h2

theorem get?_append1 (d : Dict (List α)) (k k0 : String) (v : α) :
    get? (append1 d k v) k0 =
      if k = k0 then some (((get? d k0).getD []) ++ [v]) else get? d k0 := by
  induction d with
  | nil => simp only [append1, get?]; by_cases h : k = k0 <;> simp [h]
  | cons kv rest ih =>
    obtain ⟨k1, v1⟩ := kv
    by_cases h1 : k1 = k <;> by_cases h0 : k1 = k0
    · have hk : k = k0 := h1.symm.trans h0
      simp [append1, get?, h1, h0, hk]
    · have hk : ¬k = k0 := fun h => h0 (h1.trans h)
      simp [append1, get?, h1, h0, hk]
    · subst h0
      have hk : ¬k = k1 := fun h => h1 h.symm
      simp [append1, get?, h1, hk]
    · simp [append1, get?, h1, h0, ih]

theorem mem_keys_append1 (d : Dict (List α)) (k k0 : String) (v : α) :
    k0 ∈ keys (append1 d k v) ↔ k0 = k ∨ k0 ∈ keys d := by
  induction d with
  | nil => simp [append1]
  | cons kv rest ih =>
    obtain ⟨k1, v1⟩ := kv
    by_cases h1 : k1 = k
    · subst h1
      simp [append1]
    · simp [append1, h1, ih]
      tauto

theorem nodup_keys_append1 (d : Dict (List α)) (k : String) (v : α)
    (h : (keys d).Nodup) : (keys (append1 d k v)).Nodup := by
  induction d with
  | nil => simp [append1]
  | cons kv rest ih =>
    obtain ⟨k1, v1⟩ := kv
    rw [keys_cons, List.nodup_cons] at h
    by_cases h1 : k1 = k
    · subst h1
      simpa [append1] using h
    · rw [show append1 ((k1, v1) :: rest) k v = (k1, v1) :: append1 rest k v by
        simp [append1, h1]]
      rw [keys_cons, List.nodup_cons]
      refine ⟨fun hmem => ?_, ih h.2⟩
      rcases (mem_keys_append1 rest k k1 v).1 hmem with h2 | h2
      · exact h1 h2
      · exact h.1 h2

theorem get?_eq_none_iff (d : Dict α) (k : String) :
    get? d k = none ↔ k ∉ keys d := by
  induction d with
  | nil => simp [get?]
  | cons kv rest ih =>
    obtain ⟨k1, v1⟩ := kv
    by_cases h1 : k1 = k
    · subst h1
      simp [get?]
    · simp [get?, h1, ih]
      exact fun _ h => h1 h.symm

theorem get?_union (a b : Dict α) (k : String) (hb : (keys b).Nodup) :
    get? (union a b) k = lastO (get? a k) (get? b k) := by
  induction b generalizing a with
  | nil => simp [union, get?, lastO]
  | cons kv rest ih =>
    obtain ⟨k1, v1⟩ := kv
    rw [keys_cons, List.nodup_cons] at hb
    have step : union a ((k1, v1) :: rest) = union (set a k1 v1) rest := rfl
    rw [step, ih (set a k1 v1) hb.2]
    by_cases h1 : k1 = k
    · subst h1
      have hrest : get? rest k1 = none := (get?_eq_none_iff rest k1).2 hb.1
      simp [get?, get?_set, hrest, lastO]
    · simp [get?, get?_set, h1, lastO]

theorem nodup_keys_union (a b : Dict α) (ha : (keys a).Nodup) :
    (keys (union a b)).Nodup := by
  induction b generalizing a with
  | nil => exact ha
  | cons kv rest ih =>
    exact ih (set a kv.1 kv.2) (nodup_keys_set a kv.1 kv.2 ha)

end Dict

end Myst

namespace Myst

/-! ## Specification-side descriptions of the per-document indexes -/

/-- The Location that line `rl` contributes for identifier `sym` in the
definition scan, if any. -/
def defContrib (uri : String) (sym : String) (rl : Nat × List Char) : Option Location :=
  match defLineMatch rl.2 with
  | none => none
  | some (s, a, b) => if s = sym then some ⟨uri, rl.1, a, b⟩ else none

/-- Modelled from the spec sentence for C5: the Location of the *last*
scanned definition occurrence of `sym`, scanning lines in order. -/
def lastDefLoc (doc : TextDoc) (sym : String) : Option Location :=
  doc.lines.enum.foldl (fun a rl => lastO a (defContrib doc.uri sym rl)) none

/-- All reference Locations for `sym` contributed by one line, in
left-to-right match order. -/
def lineRefLocs (uri : String) (sym : String) (rl : Nat × List Char) : List Location :=
  (refLineMatches rl.2).filterMap
    (fun m => if m.1 = sym then some ⟨uri, rl.1, m.2.1, m.2.2⟩ else none)

/-- Modelled from the spec sentence for C6: every reference occurrence of
`sym`, line by line, in scan order. -/
def refLocList (doc : TextDoc) (sym : String) : List Location :=
  (doc.lines.enum.map (lineRefLocs doc.uri sym)).flatten

/-- Total number of reference-pattern matches for `sym` across all lines. -/
def refMatchCount (doc : TextDoc) (sym : String) : Nat :=
  (doc.lines.enum.map
    (fun rl => (refLineMatches rl.2).countP (fun m => decide (m.1 = sym)))).sum

/-! ## How the definition fold acts on one key -/

theorem get?_defStep (uri : String) (sym : String) (acc : Dict Location)
    (rl : Nat × List Char) :
    Dict.get? (defStep uri acc rl) sym = lastO (Dict.get? acc sym) (defContrib uri sym rl) := by
  unfold defStep defContrib
  cases hm : defLineMatch rl.2 with
  | none => simp [lastO]
  | some m =>
    obtain ⟨s, a, b⟩ := m
    by_cases hs : s = sym
    · simp [Dict.get?_set, hs, lastO]
    · simp [Dict.get?_set, hs, lastO]

theorem get?_foldDef (uri : String) (sym : String) :
    ∀ (rls : List (Nat × List Char)) (acc : Dict Location),
      Dict.get? (rls.foldl (defStep uri) acc) sym
        = rls.foldl (fun a rl => lastO a (defContrib uri sym rl)) (Dict.get? acc sym) := by
  intro rls
  induction rls with
  | nil => intro acc; rfl
  | cons rl rest ih =>
    intro acc
    simp only [List.foldl_cons]
    rw [ih (defStep uri acc rl), get?_defStep]

theorem nodup_foldDef (uri : String) :
    ∀ (rls : List (Nat × List Char)) (acc : Dict Location),
      (Dict.keys acc).Nodup → (Dict.keys (rls.foldl (defStep uri) acc)).Nodup := by
  intro rls
  induction rls with
  | nil => intro acc h; exact h
  | cons rl rest ih =>
    intro acc h
    simp only [List.foldl_cons]
    refine ih _ ?_
    unfold defStep
    cases defLineMatch rl.2 with
    | none => exact h
    | some m => exact Dict.nodup_keys_set acc m.1 _ h

theorem foldl_lastO_isSome {β : Type} (f : β → Option Location) :
    ∀ (rls : List β) (init : Option Location),
      (rls.foldl (fun a rl => lastO a (f rl)) init).isSome
        ↔ init.isSome ∨ ∃ rl ∈ rls, (f rl).isSome := by
  intro rls
  induction rls with
  | nil => intro init; simp
  | cons rl rest ih =>
    intro init
    rw [List.foldl_cons, ih]
    constructor
    · rintro (h | h)
      · cases hf : f rl with
        | none =>
          rw [hf] at h
          exact Or.inl h
        | some v =>
          exact Or.inr ⟨rl, List.mem_cons_self rl rest, by simp [hf]⟩
      · obtain ⟨x, hx, hfx⟩ := h
        exact Or.inr ⟨x, List.mem_cons_of_mem rl hx, hfx⟩
    · rintro (h | h)
      · cases hf : f rl with
        | none => exact Or.inl (by simpa [lastO, hf] using h)
        | some v => exact Or.inl (by simp [lastO, hf])
      · obtain ⟨x, hx, hfx⟩ := h
        rcases List.mem_cons.1 hx with hx1 | hx2
        · subst hx1
          cases hf : f x with
          | none =>
            rw [hf] at hfx
            simp at hfx
          | some v => exact Or.inl (by simp [lastO, hf])
        · exact Or.inr ⟨x, hx2, hfx⟩

theorem defContrib_isSome (uri : String) (sym : String) (rl : Nat × List Char) :
    (defContrib uri sym rl).isSome ↔ ∃ a b, defLineMatch rl.2 = some (sym, a, b) := by
  cases hm : defLineMatch rl.2 with
  | none => simp [defContrib, hm]
  | some m =>
    obtain ⟨s, a0, b0⟩ := m
    by_cases hs : s = sym
    · subst hs
      constructor
      · intro h
        exact ⟨a0, b0, rfl⟩
      · intro h
        simp [defContrib, hm]
    · constructor
      · intro h
        simp [defContrib, hm, hs] at h
      · rintro ⟨a, b, h⟩
        exact absurd (congrArg (fun q => q.1) (Option.some.inj h)) hs

/-! ## How the reference fold acts on one key -/

theorem appO_single {α : Type} (o : Option (List α)) (v : α) :
    appO o [v] = some ((o.getD []) ++ [v]) := by
  cases o <;> simp [appO]

theorem appO_none_eq {α : Type} [DecidableEq α] (l : List α) :
    appO none l = if l = [] then none else some l := by
  cases l <;> simp [appO]

theorem get?_refMatchFold (uri : String) (row : Nat) (sym : String) :
    ∀ (ms : List (String × Nat × Nat)) (acc : Dict (List Location)),
      Dict.get? (ms.foldl (fun a m => Dict.append1 a m.1 ⟨uri, row, m.2.1, m.2.2⟩) acc) sym
        = appO (Dict.get? acc sym)
            (ms.filterMap (fun m => if m.1 = sym then some ⟨uri, row, m.2.1, m.2.2⟩ else none)) := by
  intro ms
  induction ms with
  | nil =>
    intro acc
    cases h : Dict.get? acc sym <;> simp [appO, h]
  | cons m rest ih =>
    intro acc
    simp only [List.foldl_cons]
    rw [ih]
    by_cases hs : m.1 = sym
    · rw [Dict.get?_append1, if_pos hs]
      have h1 := appO_single (Dict.get? acc sym) (⟨uri, row, m.2.1, m.2.2⟩ : Location)
      rw [← h1, appO_append]
      simp [List.filterMap_cons, hs]
    · rw [Dict.get?_append1, if_neg hs]
      simp [List.filterMap_cons, hs]

theorem get?_refStep (uri : String) (sym : String) (acc : Dict (List Location))
    (rl : Nat × List Char) :
    Dict.get? (refStep uri acc rl) sym
      = appO (Dict.get? acc sym) (lineRefLocs uri sym rl) := by
  unfold refStep lineRefLocs
  exact get?_refMatchFold uri rl.1 sym (refLineMatches rl.2) acc

theorem get?_foldRef (uri : String) (sym : String) :
    ∀ (rls : List (Nat × List Char)) (acc : Dict (List Location)),
      Dict.get? (rls.foldl (refStep uri) acc) sym
        = appO (Dict.get? acc sym) ((rls.map (lineRefLocs uri sym)).flatten) := by
  intro rls
  induction rls with
  | nil =>
    intro acc
    cases h : Dict.get? acc sym <;> simp [appO, h]
  | cons rl rest ih =>
    intro acc
    simp only [List.foldl_cons, List.map_cons, List.flatten_cons]
    rw [ih (refStep uri acc rl), get?_refStep, appO_append]

theorem nodup_foldRef (uri : String) :
    ∀ (rls : List (Nat × List Char)) (acc : Dict (List Location)),
      (Dict.keys acc).Nodup → (Dict.keys (rls.foldl (refStep uri) acc)).Nodup := by
  intro rls
  induction rls with
  | nil => intro acc h; exact h
  | cons rl rest ih =>
    intro acc h
    simp only [List.foldl_cons]
    refine ih _ ?_
    unfold refStep
    generalize refLineMatches rl.2 = ms
    induction ms generalizing acc with
    | nil => exact h
    | cons m rest2 ih2 =>
      simp only [List.foldl_cons]
      exact ih2 _ (Dict.nodup_keys_append1 acc m.1 _ h)

theorem length_filterMap_if {β γ : Type} (p : β → Prop) [DecidablePred p] (f : β → γ) :
    ∀ l : List β,
      (l.filterMap (fun m => if p m then some (f m) else none)).length
        = l.countP (fun m => decide (p m)) := by
  intro l
  induction l with
  | nil => rfl
  | cons m rest ih =>
    by_cases hp : p m
    · simp [List.filterMap_cons, List.countP_cons, hp, ih]
    · simp [List.filterMap_cons, List.countP_cons, hp, ih]

end Myst

namespace Myst

/-- C5 witness document: `s5` is defined twice, on line 0 by a `:name:`
directive and on line 1 by a section-id pattern. -/
def c5Doc : TextDoc := ⟨"file:///d5.md", [":name: s5".data, "  \x7b#s5\x7d x".data]⟩

/-- C6/C10 witness document: `s6` referenced twice on line 0 and once on
line 1, `t6` once. -/
def c6Doc : TextDoc :=
  ⟨"file:///d6.md", ["\x7bnumref\x7d\x60s6\x60 ](s6".data, "](s6 ](t6".data]⟩

/-- C5: per document, the definition map has exactly one entry per
identifier occurring in a definition pattern, holding the last scanned
occurrence (lines in order; at most one definition match exists per line
because every definition alternative is anchored at column 0). -/
theorem C5_def_index_last_wins (doc : TextDoc) (sym : String) :
    Dict.get? (queryCrossRefDefLocations doc) sym = lastDefLoc doc sym
    ∧ (Dict.keys (queryCrossRefDefLocations doc)).Nodup
    ∧ ((lastDefLoc doc sym).isSome ↔
        ∃ rl ∈ doc.lines.enum, ∃ a b, defLineMatch rl.2 = some (sym, a, b)) := by
  refine ⟨?_, ?_, ?_⟩
  · rw [queryCrossRefDefLocations, get?_foldDef]
    rfl
  · exact nodup_foldDef doc.uri doc.lines.enum [] List.nodup_nil
  · rw [lastDefLoc, foldl_lastO_isSome]
    simp only [Option.isSome_none, Bool.false_eq_true, false_or]
    constructor
    · rintro ⟨rl, hrl, hsome⟩
      exact ⟨rl, hrl, (defContrib_isSome doc.uri sym rl).1 hsome⟩
    · rintro ⟨rl, hrl, h⟩
      exact ⟨rl, hrl, (defContrib_isSome doc.uri sym rl).2 h⟩

/-- C5 witness: the characterization applied to a concrete document where
`s5` is defined twice; the stored Location is the one of line 1. -/
theorem C5_def_index_witness :
    Dict.get? (queryCrossRefDefLocations c5Doc) "s5" = lastDefLoc c5Doc "s5"
    ∧ lastDefLoc c5Doc "s5" = some ⟨"file:///d5.md", 1, 4, 6⟩ :=
  ⟨(C5_def_index_last_wins c5Doc "s5").1, by decide⟩

/-- C6: per document, the reference map has an entry for an identifier
exactly when it has at least one reference match, the entry lists every
match in scan order, and its length is the total number of
reference-pattern matches of that identifier over all lines. -/
theorem C6_ref_index_counts (doc : TextDoc) (sym : String) :
    Dict.get? (queryReferenceLocations doc) sym
      = (if refLocList doc sym = [] then none else some (refLocList doc sym))
    ∧ (Dict.keys (queryReferenceLocations doc)).Nodup
    ∧ (refLocList doc sym).length = refMatchCount doc sym
    ∧ ((Dict.get? (queryReferenceLocations doc) sym).isSome ↔ refMatchCount doc sym ≠ 0) := by
  have h1 : Dict.get? (queryReferenceLocations doc) sym
      = (if refLocList doc sym = [] then none else some (refLocList doc sym)) := by
    rw [queryReferenceLocations, get?_foldRef]
    exact appO_none_eq _
  have h3 : (refLocList doc sym).length = refMatchCount doc sym := by
    rw [refLocList, refMatchCount, List.length_flatten, List.map_map]
    have hfg : (List.length ∘ lineRefLocs doc.uri sym)
        = (fun rl : Nat × List Char =>
            (refLineMatches rl.2).countP (fun m => decide (m.1 = sym))) := by
      funext rl
      show (lineRefLocs doc.uri sym rl).length
          = (refLineMatches rl.2).countP (fun m => decide (m.1 = sym))
      rw [lineRefLocs]
      exact length_filterMap_if _ _ _
    rw [hfg]
  refine ⟨h1, nodup_foldRef doc.uri doc.lines.enum [] List.nodup_nil, h3, ?_⟩
  rw [h1, ← h3]
  by_cases he : refLocList doc sym = []
  · simp [he]
  · simp [he, List.length_eq_zero]

/-- C6 witness: on `c6Doc`, identifier `s6` has three matches (two on line
0, one on line 1), and its merged per-document entry has length 3. -/
theorem C6_ref_index_witness :
    Dict.get? (queryReferenceLocations c6Doc) "s6"
      = (if refLocList c6Doc "s6" = [] then none else some (refLocList c6Doc "s6"))
    ∧ refMatchCount c6Doc "s6" = 3 :=
  ⟨(C6_ref_index_counts c6Doc "s6").1, by decide⟩

/-- C10: a key present in the per-document reference map is never bound to
an empty sequence: entries are created together with their first
location. -/
theorem C10_ref_entries_nonempty (doc : TextDoc) (sym : String) (l : List Location)
    (h : Dict.get? (queryReferenceLocations doc) sym = some l) : l ≠ [] := by
  rw [queryReferenceLocations, get?_foldRef] at h
  cases hl : (doc.lines.enum.map (lineRefLocs doc.uri sym)).flatten with
  | nil =>
    rw [hl] at h
    exact absurd h (by simp [appO, Dict.get?])
  | cons x t =>
    rw [hl] at h
    have h2 : some (x :: t) = some l := by simpa [appO, Dict.get?] using h
    intro hc
    rw [hc] at h2
    exact List.cons_ne_nil x t (Option.some.inj h2)

/-- C10 witness: the theorem applied to `c6Doc` and identifier `t6`. -/
theorem C10_ref_entries_witness :
    ([(⟨"file:///d6.md", 1, 7, 9⟩ : Location)] : List Location) ≠ [] :=
  C10_ref_entries_nonempty c6Doc "t6" [⟨"file:///d6.md", 1, 7, 9⟩] (by decide)

end Myst

namespace Myst

/-- Lookup in the union of two maps as the specification words it for
disjoint key sets: the side that has the key provides the Location. -/
def unionLookup (a b : Option Location) : Option Location :=
  match a with
  | some v => some v
  | none => b

theorem lastO_none {α : Type} (x : Option α) : lastO none x = x := by
  cases x <;> rfl

theorem mem_keys_of_get? {α : Type} (d : Dict α) (k : String) (v : α)
    (h : Dict.get? d k = some v) : k ∈ Dict.keys d := by
  by_contra hc
  rw [(Dict.get?_eq_none_iff d k).2 hc] at h
  exact Option.noConfusion h

theorem nodup_keys_defs (X : TextDoc) : (Dict.keys (queryCrossRefDefLocations X)).Nodup :=
  nodup_foldDef X.uri X.lines.enum [] List.nodup_nil

/-- A two-file project merge is the overwriting union: the later-merged
file wins on each key. -/
theorem get?_merged_pair (X Y : TextDoc) (sym : String) :
    Dict.get? (queryAllDefLocationsMerged [X, Y]) sym
      = lastO (Dict.get? (queryCrossRefDefLocations X) sym)
          (Dict.get? (queryCrossRefDefLocations Y) sym) := by
  show Dict.get?
      (Dict.union (Dict.union [] (queryCrossRefDefLocations X)) (queryCrossRefDefLocations Y))
      sym = _
  rw [Dict.get?_union _ _ _ (nodup_keys_defs Y), Dict.get?_union _ _ _ (nodup_keys_defs X)]
  rw [show Dict.get? ([] : Dict Location) sym = none from rfl, lastO_none]

/-- C7: when files A and B define disjoint identifier sets, the merged
project map is their union, independently of the merge order. -/
theorem C7_disjoint_union_merge (A B : TextDoc)
    (hdisj : ∀ k ∈ Dict.keys (queryCrossRefDefLocations A),
        k ∉ Dict.keys (queryCrossRefDefLocations B)) :
    ∀ sym,
      Dict.get? (queryAllDefLocationsMerged [A, B]) sym
        = unionLookup (Dict.get? (queryCrossRefDefLocations A) sym)
            (Dict.get? (queryCrossRefDefLocations B) sym)
      ∧ Dict.get? (queryAllDefLocationsMerged [B, A]) sym
        = unionLookup (Dict.get? (queryCrossRefDefLocations A) sym)
            (Dict.get? (queryCrossRefDefLocations B) sym) := by
  intro sym
  rw [get?_merged_pair A B sym, get?_merged_pair B A sym]
  cases hA : Dict.get? (queryCrossRefDefLocations A) sym with
  | none =>
    constructor
    · cases Dict.get? (queryCrossRefDefLocations B) sym <;> rfl
    · rfl
  | some v =>
    have hmem : sym ∈ Dict.keys (queryCrossRefDefLocations A) :=
      mem_keys_of_get? _ _ _ hA
    have hB : Dict.get? (queryCrossRefDefLocations B) sym = none :=
      (Dict.get?_eq_none_iff _ _).2 (hdisj sym hmem)
    rw [hB]
    exact ⟨rfl, rfl⟩

/-- C8: when the same identifier is defined in both files of a project,
the merged map always holds exactly one of the two Locations — the one of
the file merged last — and is never missing the key. -/
theorem C8_dup_def_merge (A B : TextDoc) (sym : String) (lA lB : Location)
    (hA : Dict.get? (queryCrossRefDefLocations A) sym = some lA)
    (hB : Dict.get? (queryCrossRefDefLocations B) sym = some lB) :
    Dict.get? (queryAllDefLocationsMerged [A, B]) sym = some lB
    ∧ Dict.get? (queryAllDefLocationsMerged [B, A]) sym = some lA
    ∧ (Dict.keys (queryAllDefLocationsMerged [A, B])).Nodup := by
  refine ⟨?_, ?_, ?_⟩
  · rw [get?_merged_pair A B sym, hA, hB]
    rfl
  · rw [get?_merged_pair B A sym, hA, hB]
    rfl
  · show (Dict.keys
      (Dict.union (Dict.union [] (queryCrossRefDefLocations A))
        (queryCrossRefDefLocations B))).Nodup
    exact Dict.nodup_keys_union _ _ (Dict.nodup_keys_union _ _ List.nodup_nil)

/-- C7 witness documents: disjoint definition sets. -/
def c7DocA : TextDoc := ⟨"file:///7a.md", [":name: aaa".data]⟩

/-- Second C7 witness document. -/
def c7DocB : TextDoc := ⟨"file:///7b.md", [":name: bbb".data]⟩

/-- C7 witness: the union description applies to a concrete disjoint
two-file project, in both merge orders. -/
theorem C7_disjoint_union_witness :
    Dict.get? (queryAllDefLocationsMerged [c7DocA, c7DocB]) "aaa"
      = unionLookup (Dict.get? (queryCrossRefDefLocations c7DocA) "aaa")
          (Dict.get? (queryCrossRefDefLocations c7DocB) "aaa")
    ∧ Dict.get? (queryAllDefLocationsMerged [c7DocB, c7DocA]) "aaa"
      = unionLookup (Dict.get? (queryCrossRefDefLocations c7DocA) "aaa")
          (Dict.get? (queryCrossRefDefLocations c7DocB) "aaa") :=
  C7_disjoint_union_merge c7DocA c7DocB (by decide) "aaa"

/-- C8 witness documents: `dup` defined in both files. -/
def c8DocA : TextDoc := ⟨"file:///8a.md", [":name: dup".data]⟩

/-- Second C8 witness document. -/
def c8DocB : TextDoc := ⟨"file:///8b.md", ["\x7b#dup".data]⟩

/-- C8 witness: with `dup` defined in both files, each merge order keeps
exactly the Location of the file merged last. -/
theorem C8_dup_def_witness :
    Dict.get? (queryAllDefLocationsMerged [c8DocA, c8DocB]) "dup"
      = some ⟨"file:///8b.md", 0, 2, 5⟩
    ∧ Dict.get? (queryAllDefLocationsMerged [c8DocB, c8DocA]) "dup"
      = some ⟨"file:///8a.md", 0, 7, 10⟩ :=
  ⟨(C8_dup_def_merge c8DocA c8DocB "dup" ⟨"file:///8a.md", 0, 7, 10⟩ ⟨"file:///8b.md", 0, 2, 5⟩
      (by decide) (by decide)).1,
   (C8_dup_def_merge c8DocA c8DocB "dup" ⟨"file:///8a.md", 0, 7, 10⟩ ⟨"file:///8b.md", 0, 2, 5⟩
      (by decide) (by decide)).2.1⟩

end Myst

namespace Myst

/-- Full characterization of `getSphinxRoot`: it returns `none` exactly
when no ancestor (suffix of the component list, including the start and
the root `[]`) satisfies the check, and a returned directory satisfies the
check, is an ancestor, and no strictly nearer ancestor satisfies it. -/
theorem getSphinxRoot_characterization (f : List String → Bool) :
    ∀ d : List String,
      (getSphinxRoot f d = none ↔ ∀ r : List String, r <:+ d → f r = false)
      ∧ (∀ r, getSphinxRoot f d = some r →
          f r = true ∧ r <:+ d ∧ ∀ q, q <:+ d → r <:+ q → q ≠ r → f q = false) := by
  intro d
  induction d with
  | nil =>
    by_cases hf : f [] = true
    · have heq : getSphinxRoot f [] = some [] := by
        simp only [getSphinxRoot]
        rw [if_pos hf]
      refine ⟨⟨fun h => ?_, fun h => ?_⟩, fun r hr => ?_⟩
      · rw [heq] at h
        exact Option.noConfusion h
      · rw [h [] (List.suffix_refl [])] at hf
        exact absurd hf Bool.false_ne_true
      · rw [heq] at hr
        have hreq : r = [] := (Option.some.inj hr).symm
        subst hreq
        refine ⟨hf, List.suffix_refl [], fun q hq hrq hne => ?_⟩
        exact absurd (List.suffix_nil.1 hq) hne
    · have hfalse : f [] = false := by
        cases hc : f [] with
        | true => exact absurd hc hf
        | false => rfl
      have heq : getSphinxRoot f [] = none := by
        simp only [getSphinxRoot]
        rw [if_neg hf]
      refine ⟨⟨fun h => ?_, fun h => heq⟩, fun r hr => ?_⟩
      · intro r hrs
        rw [List.suffix_nil.1 hrs]
        exact hfalse
      · rw [heq] at hr
        exact Option.noConfusion hr
  | cons c rest ih =>
    by_cases hf : f (c :: rest) = true
    · have heq : getSphinxRoot f (c :: rest) = some (c :: rest) := by
        simp only [getSphinxRoot]
        rw [if_pos hf]
      refine ⟨⟨fun h => ?_, fun h => ?_⟩, fun r hr => ?_⟩
      · rw [heq] at h
        exact Option.noConfusion h
      · rw [h (c :: rest) (List.suffix_refl _)] at hf
        exact absurd hf Bool.false_ne_true
      · rw [heq] at hr
        have hreq : r = c :: rest := (Option.some.inj hr).symm
        subst hreq
        refine ⟨hf, List.suffix_refl _, fun q hq hrq hne => ?_⟩
        have h1 : q.length ≤ (c :: rest).length := hq.length_le
        have h2 : (c :: rest).length ≤ q.length := hrq.length_le
        exact absurd (hq.eq_of_length (le_antisymm h1 h2)) hne
    · have hfalse : f (c :: rest) = false := by
        cases hc : f (c :: rest) with
        | true => exact absurd hc hf
        | false => rfl
      have heq : getSphinxRoot f (c :: rest) = getSphinxRoot f rest := by
        simp only [getSphinxRoot]
        rw [if_neg hf]
      refine ⟨⟨fun h => ?_, fun h => ?_⟩, fun r hr => ?_⟩
      · rw [heq] at h
        intro r hrs
        rcases List.suffix_cons_iff.1 hrs with h1 | h1
        · rw [h1]
          exact hfalse
        · exact ih.1.1 h r h1
      · rw [heq]
        exact ih.1.2 (fun r hrs => h r (hrs.trans (List.suffix_cons c rest)))
      · rw [heq] at hr
        obtain ⟨h1, h2, h3⟩ := ih.2 r hr
        refine ⟨h1, h2.trans (List.suffix_cons c rest), fun q hq hrq hne => ?_⟩
        rcases List.suffix_cons_iff.1 hq with hq1 | hq1
        · rw [hq1]
          exact hfalse
        · exact h3 q hq1 hrq hne

/-- C4: `getSphinxRoot` finds the nearest ancestor directory (the start
directory included) whose `conf.py` check succeeds, and is absent exactly
when the check fails on every ancestor up to the filesystem root.
Directories are component lists with the deepest component first, so
ancestors are suffixes and `path.dirname` is the tail. -/
theorem C4_sphinx_root_nearest (f : List String → Bool) (d : List String) :
    (getSphinxRoot f d = none ↔ ∀ r : List String, r <:+ d → f r = false)
    ∧ (∀ r, getSphinxRoot f d = some r →
        f r = true ∧ r <:+ d ∧ ∀ q, q <:+ d → r <:+ q → q ≠ r → f q = false) :=
  getSphinxRoot_characterization f d

/-- The concrete `conf.py` layout of the C4 witness: `conf.py` lives
exactly in `/p/a`, i.e. at component list `["a", "p"]`. -/
def c4Conf : List String → Bool := fun l => l == ["a", "p"]

/-- C4 witness: resolving from `/p/a/b/c` returns `/p/a`, which satisfies
the check and is an ancestor of the start. -/
theorem C4_sphinx_root_witness :
    c4Conf ["a", "p"] = true ∧ ["a", "p"] <:+ ["c", "b", "a", "p"] :=
  have h := (C4_sphinx_root_nearest c4Conf ["c", "b", "a", "p"]).2 ["a", "p"] (by decide)
  ⟨h.1, h.2.1⟩

/-- All-false existence checks make root resolution return absent. -/
theorem getSphinxRoot_of_false (f : List String → Bool) (hf : ∀ p, f p = false) :
    ∀ d, getSphinxRoot f d = none := by
  intro d
  induction d with
  | nil =>
    simp only [getSphinxRoot]
    rw [if_neg (by rw [hf []]; exact Bool.false_ne_true)]
  | cons c rest ih =>
    simp only [getSphinxRoot]
    rw [if_neg (by rw [hf (c :: rest)]; exact Bool.false_ne_true), ih]

/-- C9, amended: filesystem errors raised by the `fs.access` existence
check are swallowed by `doesFileExists` (any error reads as "does not
exist"), so root resolution completes with an absent result even when
every access fails; enumeration completes normally on readable trees; but
`readdir` failures propagate (see the counterexample theorem). -/
theorem C9_error_handling_amended (e : String) (d p : List String) :
    doesFileExists (fun _ => Except.error e) p = false
    ∧ getSphinxRootFS (fun _ => Except.error e) d = none
    ∧ findMarkdownFiles "r" true (FSEntries.file "a.md" FSEntries.nil)
        = Except.ok ["r/a.md"] := by
  refine ⟨rfl, ?_, rfl⟩
  exact getSphinxRoot_of_false _ (fun q => rfl) d

end Myst

namespace Myst

/-- The amended identifier character class, as the corrected specification
words it: `A-Z`, `a-z`, `0-9`, underscore, and `- : + , . @`. -/
def specLabelChar (c : Char) : Prop :=
  (65 ≤ c.toNat ∧ c.toNat ≤ 90) ∨ (97 ≤ c.toNat ∧ c.toNat ≤ 122)
  ∨ (48 ≤ c.toNat ∧ c.toNat ≤ 57)
  ∨ c = '_' ∨ c = '-' ∨ c = ':' ∨ c = '+' ∨ c = ',' ∨ c = '.' ∨ c = '@'

theorem isLabelChar_iff (c : Char) : isLabelChar c = true ↔ specLabelChar c := by
  simp only [isLabelChar, specLabelChar, Bool.or_eq_true, Bool.and_eq_true, Nat.ble_eq,
    beq_iff_eq]
  tauto

theorem mem_takeWhile {α : Type} (p : α → Bool) :
    ∀ (l : List α) (a : α), a ∈ l.takeWhile p → p a = true := by
  intro l
  induction l with
  | nil => intro a h; simp [List.takeWhile] at h
  | cons x t ih =>
    intro a h
    rw [List.takeWhile_cons] at h
    by_cases hx : p x = true
    · rw [if_pos hx] at h
      rcases List.mem_cons.1 h with h1 | h1
      · rw [h1]
        exact hx
      · exact ih a h1
    · rw [if_neg hx] at h
      simp at h

theorem takeWhile_all {α : Type} (p : α → Bool) :
    ∀ l : List α, (∀ a ∈ l, p a = true) → l.takeWhile p = l := by
  intro l
  induction l with
  | nil => intro h; rfl
  | cons a t ih =>
    intro h
    rw [List.takeWhile_cons, if_pos (h a (List.mem_cons_self a t))]
    rw [ih (fun b hb => h b (List.mem_cons_of_mem a hb))]

theorem label_not_space (c : Char) (h : isLabelChar c = true) : isSpaceChar c = false := by
  cases hs : isSpaceChar c with
  | false => rfl
  | true =>
    exfalso
    simp only [isSpaceChar, Bool.or_eq_true, beq_iff_eq] at hs
    rcases hs with ((((h1 | h1) | h1) | h1) | h1) | h1 <;> subst h1 <;>
      exact absurd h (by decide)

/-- Every identifier the definition scanner captures is a non-empty string
over the (amended) label character class. -/
theorem defLineMatch_chars (cs : List Char) (m : String × Nat × Nat)
    (h : defLineMatch cs = some m) :
    m.1.data ≠ [] ∧ ∀ c ∈ m.1.data, specLabelChar c := by
  unfold defLineMatch at h
  split at h
  · exact Option.noConfusion h
  · rename_i p hp
    split at h
    · exact Option.noConfusion h
    · rename_i hne
      have hm : m = (String.mk (labelRun (cs.drop p)), p, p + (labelRun (cs.drop p)).length) :=
        (Option.some.inj h).symm
      subst hm
      refine ⟨hne, fun c hc => ?_⟩
      exact (isLabelChar_iff c).1 (mem_takeWhile isLabelChar (cs.drop p) c hc)

/-- Every identifier the reference scanner captures is a non-empty string
over the (amended) label character class. -/
theorem refScanAux_chars :
    ∀ (fuel : Nat) (cs : List Char) (pos : Nat) (m : String × Nat × Nat),
      m ∈ refScanAux fuel cs pos → m.1.data ≠ [] ∧ ∀ c ∈ m.1.data, specLabelChar c := by
  intro fuel
  induction fuel with
  | zero =>
    intro cs pos m h
    simp [refScanAux] at h
  | succ fuel ih =>
    intro cs pos m h
    cases cs with
    | nil => simp [refScanAux] at h
    | cons c rest =>
      unfold refScanAux at h
      split at h
      · rename_i p hp
        split at h
        · exact ih rest (pos + 1) m h
        · rename_i hne
          rcases List.mem_cons.1 h with h1 | h1
          · rw [h1]
            refine ⟨hne, fun c2 hc2 => ?_⟩
            exact (isLabelChar_iff c2).1 (mem_takeWhile isLabelChar _ c2 hc2)
          · exact ih _ _ m h1
      · exact ih rest (pos + 1) m h

end Myst

namespace Myst

instance specLabelChar.dec (c : Char) : Decidable (specLabelChar c) :=
  decidable_of_iff (isLabelChar c = true) (isLabelChar_iff c)

theorem takeWhile_space_nil_of_label (s : List Char)
    (hall : ∀ c ∈ s, isLabelChar c = true) : s.takeWhile isSpaceChar = [] := by
  cases s with
  | nil => rfl
  | cons c0 t =>
    rw [List.takeWhile_cons, label_not_space c0 (hall c0 (List.mem_cons_self c0 t))]
    rw [if_neg Bool.false_ne_true]

theorem nameLen_name_prefix (s : List Char) (hall : ∀ c ∈ s, isLabelChar c = true) :
    nameLen (':' :: 'n' :: 'a' :: 'm' :: 'e' :: ':' :: ' ' :: s) = some 7 := by
  unfold nameLen
  rw [show wsLen (':' :: 'n' :: 'a' :: 'm' :: 'e' :: ':' :: ' ' :: s) = 0 from rfl]
  rw [List.drop_zero]
  rw [show startsWithL ":name:".data (':' :: 'n' :: 'a' :: 'm' :: 'e' :: ':' :: ' ' :: s)
        = true from rfl]
  rw [if_pos rfl]
  rw [show (':' :: 'n' :: 'a' :: 'm' :: 'e' :: ':' :: ' ' :: s).drop (0 + 6) = ' ' :: s from rfl]
  unfold wsLen
  rw [List.takeWhile_cons, if_pos (show isSpaceChar ' ' = true from rfl)]
  rw [takeWhile_space_nil_of_label s hall]
  rfl

theorem defPrefixLen_name (s : List Char) (hall : ∀ c ∈ s, isLabelChar c = true) :
    defPrefixLen (':' :: 'n' :: 'a' :: 'm' :: 'e' :: ':' :: ' ' :: s) = some 7 := by
  unfold defPrefixLen
  rw [show secStartLen (':' :: 'n' :: 'a' :: 'm' :: 'e' :: ':' :: ' ' :: s) = none from rfl]
  rw [show figureMdLen (':' :: 'n' :: 'a' :: 'm' :: 'e' :: ':' :: ' ' :: s) = none from rfl]
  exact nameLen_name_prefix s hall

theorem defLineMatch_name (s : List Char) (hs : s ≠ [])
    (hall : ∀ c ∈ s, isLabelChar c = true) :
    defLineMatch (':' :: 'n' :: 'a' :: 'm' :: 'e' :: ':' :: ' ' :: s)
      = some (String.mk s, 7, 7 + s.length) := by
  have hlab : labelRun s = s := takeWhile_all isLabelChar s hall
  unfold defLineMatch
  rw [defPrefixLen_name s hall]
  show (if labelRun ((':' :: 'n' :: 'a' :: 'm' :: 'e' :: ':' :: ' ' :: s).drop 7) = []
        then none
        else some (String.mk (labelRun ((':' :: 'n' :: 'a' :: 'm' :: 'e' :: ':' :: ' ' :: s).drop 7)),
          7, 7 + (labelRun ((':' :: 'n' :: 'a' :: 'm' :: 'e' :: ':' :: ' ' :: s).drop 7)).length))
      = some (String.mk s, 7, 7 + s.length)
  rw [show (':' :: 'n' :: 'a' :: 'm' :: 'e' :: ':' :: ' ' :: s).drop 7 = s from rfl]
  rw [hlab, if_neg hs]

theorem refScanAux_nil (fuel pos : Nat) : refScanAux fuel [] pos = [] := by
  cases fuel <;> rfl

theorem refScanAux_cons_match (fuel : Nat) (c : Char) (rest : List Char) (pos p : Nat)
    (hp : refPrefixLen (c :: rest) = some p)
    (hl : labelRun ((c :: rest).drop p) ≠ []) :
    refScanAux (fuel + 1) (c :: rest) pos
      = (String.mk (labelRun ((c :: rest).drop p)), pos + p,
            pos + p + (labelRun ((c :: rest).drop p)).length)
          :: refScanAux fuel ((c :: rest).drop (p + (labelRun ((c :: rest).drop p)).length))
              (pos + p + (labelRun ((c :: rest).drop p)).length) := by
  have heq : refScanAux (fuel + 1) (c :: rest) pos
      = (match refPrefixLen (c :: rest) with
        | some p2 =>
          if labelRun ((c :: rest).drop p2) = [] then refScanAux fuel rest (pos + 1)
          else
            (String.mk (labelRun ((c :: rest).drop p2)), pos + p2,
                pos + p2 + (labelRun ((c :: rest).drop p2)).length)
              :: refScanAux fuel ((c :: rest).drop (p2 + (labelRun ((c :: rest).drop p2)).length))
                  (pos + p2 + (labelRun ((c :: rest).drop p2)).length)
        | none => refScanAux fuel rest (pos + 1)) := rfl
  rw [heq, hp]
  show (if labelRun ((c :: rest).drop p) = [] then refScanAux fuel rest (pos + 1)
        else
          (String.mk (labelRun ((c :: rest).drop p)), pos + p,
              pos + p + (labelRun ((c :: rest).drop p)).length)
            :: refScanAux fuel ((c :: rest).drop (p + (labelRun ((c :: rest).drop p)).length))
                (pos + p + (labelRun ((c :: rest).drop p)).length))
      = (String.mk (labelRun ((c :: rest).drop p)), pos + p,
            pos + p + (labelRun ((c :: rest).drop p)).length)
          :: refScanAux fuel ((c :: rest).drop (p + (labelRun ((c :: rest).drop p)).length))
              (pos + p + (labelRun ((c :: rest).drop p)).length)
  rw [if_neg hl]

theorem refLineMatches_link (s : List Char) (hs : s ≠ [])
    (hall : ∀ c ∈ s, isLabelChar c = true) :
    refLineMatches (']' :: '(' :: s) = [(String.mk s, 2, 2 + s.length)] := by
  have hdrop2 : (']' :: '(' :: s).drop 2 = s := rfl
  have hlab : labelRun s = s := takeWhile_all isLabelChar s hall
  have hp : refPrefixLen (']' :: '(' :: s) = some 2 := rfl
  have hl : labelRun ((']' :: '(' :: s).drop 2) ≠ [] := by
    rw [hdrop2, hlab]
    exact hs
  unfold refLineMatches
  show refScanAux (s.length + 1 + 1) (']' :: '(' :: s) 0 = [(String.mk s, 2, 2 + s.length)]
  rw [refScanAux_cons_match (s.length + 1) ']' ('(' :: s) 0 2 hp hl]
  rw [hdrop2, hlab]
  rw [show (']' :: '(' :: s).drop (2 + s.length) = List.drop s.length s from by
    rw [Nat.add_comm 2 s.length]
    rw [show s.length + 2 = s.length + 1 + 1 from rfl]
    rw [List.drop_succ_cons, List.drop_succ_cons]]
  rw [List.drop_length, refScanAux_nil]

/-- C3, amended: the identifiers accepted by the definition scanner and
the reference scanner are exactly the non-empty strings over the class
`A-Z a-z 0-9 _ - : + , . @` — the source regex uses `\w`, which includes
the underscore the original claim excluded.  Soundness: every captured
identifier is non-empty and stays inside the class.  Completeness: every
non-empty string over the class is captured in full by both scanners
(behind a `:name: ` directive and behind `](`). -/
theorem C3_label_charclass_amended :
    (∀ (cs : List Char) (m : String × Nat × Nat),
        defLineMatch cs = some m → m.1.data ≠ [] ∧ ∀ c ∈ m.1.data, specLabelChar c)
    ∧ (∀ (cs : List Char) (m : String × Nat × Nat),
        m ∈ refLineMatches cs → m.1.data ≠ [] ∧ ∀ c ∈ m.1.data, specLabelChar c)
    ∧ (∀ s : List Char, s ≠ [] → (∀ c ∈ s, specLabelChar c) →
        defLineMatch (':' :: 'n' :: 'a' :: 'm' :: 'e' :: ':' :: ' ' :: s)
          = some (String.mk s, 7, 7 + s.length)
        ∧ refLineMatches (']' :: '(' :: s) = [(String.mk s, 2, 2 + s.length)]) := by
  refine ⟨defLineMatch_chars, ?_, ?_⟩
  · intro cs m h
    exact refScanAux_chars cs.length cs 0 m h
  · intro s hs hall
    have hall2 : ∀ c ∈ s, isLabelChar c = true := fun c hc => (isLabelChar_iff c).2 (hall c hc)
    exact ⟨defLineMatch_name s hs hall2, refLineMatches_link s hs hall2⟩

/-- C3 witness: the amended characterization applied to the identifier
`a_b`, which contains the underscore. -/
theorem C3_label_charclass_witness :
    defLineMatch (':' :: 'n' :: 'a' :: 'm' :: 'e' :: ':' :: ' ' :: "a_b".data)
      = some (String.mk "a_b".data, 7, 7 + ("a_b".data).length)
    ∧ refLineMatches (']' :: '(' :: "a_b".data)
      = [(String.mk "a_b".data, 2, 2 + ("a_b".data).length)] :=
  C3_label_charclass_amended.2.2 "a_b".data (by decide) (by decide)

end Myst
